import Mathlib

/-!
Shallow embedding of the metrics computation engine of mostro-score-web
(src/web/js/metrics.js, with the tag extraction helper getTagValue from
src/js/nostr.js).

Modelling conventions:
* A Nostr event is reduced to the fields the engine reads: `created_at`
  (unix seconds, a JS number holding an integer, modelled as `Int`) and
  `tags` (an array of arrays of strings).
* JS numbers that hold integer values (timestamps, sat amounts, counts)
  are modelled as `Int`/`Nat`; the two genuinely fractional values the
  engine produces (`daysActive`, `meanTrade`) are modelled as `ℚ`, which
  is exact where the JS doubles round; `Math.floor` on such values is
  `Int.floor`, and `Math.floor` of an integer quotient is `Int.fdiv`.
* `null`/`undefined` results of `getTagValue` are both modelled as
  `none`; JS truthiness of a string (non-null and non-empty) is made
  explicit at each use site, exactly where metrics.js tests `if (x)`.
* The JS `Map` used for order deduplication is modelled as an
  association list with JS `Map` semantics: `set` on a present key
  replaces the value in place, `set` on an absent key appends.
* `computeMetrics` in metrics.js reads the clock itself
  (`const now = Math.floor(Date.now() / 1000)`, line 13).  The embedding
  makes that hidden input explicit: the parameter `now` of
  `computeMetrics` below stands for the value `Date.now()/1000` had at
  the moment of the call, so dependence of the report on the internal
  clock is visible as dependence on this parameter.
-/

namespace MostroScore

/-- A raw Nostr event as the engine sees it. -/
structure NEvent where
  created_at : Int
  tags : List (List String)
deriving Repr, DecidableEq, Inhabited

/-- nostr.js `getTagValue`: the second entry of the first tag whose first
entry is `name`; `none` models both `null` (no such tag) and `undefined`
(tag shorter than two entries). -/
def getTagValue (e : NEvent) (name : String) : Option String :=
  match e.tags.find? (fun t => decide (t.head? = some name)) with
  | none => none
  | some t => t[1]?

/-- The order identifier metrics.js deduplicates by: the `d` tag value when
it is truthy (present and non-empty), else `none` (the event is skipped by
the dedup store). -/
def orderIdOf (e : NEvent) : Option String :=
  match getTagValue e "d" with
  | none => none
  | some s => if s = "" then none else some s

/-- JS `StrWhiteSpace` characters that `parseInt` skips (the ASCII ones;
the engine's tag values never carry the exotic unicode spaces). -/
def isJsSpace (c : Char) : Bool :=
  c == ' ' || c == '\t' || c == '\n' || c == '\r' || c == '\x0b' || c == '\x0c'

/-- Numeric value of a decimal digit character. -/
def digitVal (c : Char) : Nat := c.toNat - 48

/-- JS `parseInt(s, 10)`: skip leading whitespace, one optional sign, then
the longest prefix of decimal digits; `none` models `NaN` (no digits). -/
def jsParseInt (s : String) : Option Int :=
  let cs := s.data.dropWhile isJsSpace
  let sr : Int × List Char :=
    match cs with
    | c :: cx => if c = '-' then (-1, cx) else if c = '+' then (1, cx) else (1, c :: cx)
    | [] => (1, [])
  let digits := sr.2.takeWhile (fun c => c.isDigit)
  if digits = [] then none
  else some (sr.1 * digits.foldl (fun a c => a * 10 + (digitVal c : Int)) 0)

/-- JS `Map.get`, on the association-list model of the dedup map. -/
def mapGet (m : List (String × NEvent)) (k : String) : Option NEvent :=
  match m.find? (fun p => decide (p.1 = k)) with
  | none => none
  | some p => some p.2

/-- JS `Map.set`: replace in place when the key is present, append when it
is new. -/
def mapSet (m : List (String × NEvent)) (k : String) (v : NEvent) :
    List (String × NEvent) :=
  match m with
  | [] => [(k, v)]
  | p :: rest => if p.1 = k then (k, v) :: rest else p :: mapSet rest k v

/-- One iteration of the dedup loop of metrics.js (lines 39-46): an event
with a truthy `d` tag replaces the stored event for that id only when its
`created_at` is strictly greater (or no event is stored yet). -/
def dedupStep (m : List (String × NEvent)) (e : NEvent) :
    List (String × NEvent) :=
  match orderIdOf e with
  | none => m
  | some id =>
    match mapGet m id with
    | none => mapSet m id e
    | some ex => if ex.created_at < e.created_at then mapSet m id e else m

/-- The `ordersMap` built by the dedup loop over the raw order events. -/
def dedupOrders (orderEvents : List NEvent) : List (String × NEvent) :=
  orderEvents.foldl dedupStep []

/-- `ordersMap.values()` in insertion order. -/
def mapValues (m : List (String × NEvent)) : List NEvent := m.map (fun p => p.2)

/-- Insert into an ascending list, keeping it ascending. -/
def insertAsc (x : Int) : List Int → List Int
  | [] => [x]
  | y :: ys => if x ≤ y then x :: y :: ys else y :: insertAsc x ys

/-- The ascending sort JS `sort((a, b) => a - b)` produces. -/
def sortAsc (l : List Int) : List Int := l.foldr insertAsc []

/-- metrics.js lines 16-21: `created_at` of the earliest dev fee event
(the head of the ascending sort), `none` when there are no dev fee
events. -/
def firstDevFeeTs (devFeeEvents : List NEvent) : Option Int :=
  match sortAsc (devFeeEvents.map (fun e => e.created_at)) with
  | [] => none
  | t :: _ => some t

/-- The `lastOrderTs` tracker (starts at 0, takes every strictly larger
timestamp). -/
def trackLast (a : Int) (e : NEvent) : Int :=
  if a < e.created_at then e.created_at else a

def lastOrderTs (orderEvents : List NEvent) : Int :=
  orderEvents.foldl trackLast 0

/-- The `firstOrderTs` tracker (starts at `Infinity`, modelled `none`,
and takes every strictly smaller timestamp). -/
def trackFirst (a : Option Int) (e : NEvent) : Option Int :=
  match a with
  | none => some e.created_at
  | some v => if e.created_at < v then some e.created_at else some v

def firstOrderTsOpt (orderEvents : List NEvent) : Option Int :=
  orderEvents.foldl trackFirst none

/-- metrics.js lines 75-87: days active from the earliest dev fee event,
falling back to the raw (pre-dedup) order-event time range, else 0. -/
def daysActiveOf (devFeeEvents orderEvents : List NEvent) (now : Int) : ℚ :=
  match firstDevFeeTs devFeeEvents with
  | some ts => ((now - ts : Int) : ℚ) / 86400
  | none =>
    if 0 < lastOrderTs orderEvents then
      ((lastOrderTs orderEvents - (firstOrderTsOpt orderEvents).getD 0 : Int) : ℚ)
        / 86400
    else 0

/-- The accumulators of the loop over `ordersMap.values()` (metrics.js
lines 50-73). -/
structure OrderAgg where
  successfulOrders : Nat
  totalVolumeSats : Int
  tradeAmounts : List Int
  successfulTradeTimestamps : List Int
deriving Repr, DecidableEq

/-- The amount a successful order contributes: the `amt` tag value when it
is truthy and `parseInt(amt, 10)` yields a positive number, else `none`. -/
def amountOf (e : NEvent) : Option Int :=
  match getTagValue e "amt" with
  | none => none
  | some s =>
    if s = "" then none
    else
      match jsParseInt s with
      | none => none
      | some n => if 0 < n then some n else none

/-- One iteration of the values loop: a `success` order always counts and
contributes its timestamp; its amount joins the volume and the statistics
list only when `amountOf` accepts it. -/
def processOrder (acc : OrderAgg) (e : NEvent) : OrderAgg :=
  if getTagValue e "s" = some "success" then
    let acc1 : OrderAgg :=
      { acc with
        successfulOrders := acc.successfulOrders + 1,
        successfulTradeTimestamps :=
          acc.successfulTradeTimestamps ++ [e.created_at] }
    match amountOf e with
    | some n =>
      { acc1 with
        totalVolumeSats := acc1.totalVolumeSats + n,
        tradeAmounts := acc1.tradeAmounts ++ [n] }
    | none => acc1
  else acc

def aggregateOrders (orderEvents : List NEvent) : OrderAgg :=
  (mapValues (dedupOrders orderEvents)).foldl processOrder ⟨0, 0, [], []⟩

/-- The deduplicated events with status `success`, in map-value order. -/
def successEvents (orderEvents : List NEvent) : List NEvent :=
  (mapValues (dedupOrders orderEvents)).filter
    (fun e => decide (getTagValue e "s" = some "success"))

structure TradeStats where
  min : Int
  max : Int
  mean : ℚ
  median : Int
deriving Repr, DecidableEq

/-- metrics.js `computeTradeStats` (lines 146-168). -/
def computeTradeStats (amounts : List Int) : TradeStats :=
  if amounts = [] then ⟨0, 0, 0, 0⟩
  else
    let sorted := sortAsc amounts
    let mn := sorted.headD 0
    let mx := sorted.getLastD 0
    let sum := amounts.foldl (fun a v => a + v) (0 : Int)
    let mean : ℚ := (sum : ℚ) / (amounts.length : ℚ)
    let len := sorted.length
    let median : Int :=
      if len % 2 = 0 then
        Int.fdiv (sorted.getD (len / 2 - 1) 0 + sorted.getD (len / 2) 0) 2
      else sorted.getD (len / 2) 0
    ⟨mn, mx, mean, median⟩

structure RollingWindows where
  last7d : Nat
  last30d : Nat
  last90d : Nat
deriving Repr, DecidableEq

/-- metrics.js `computeRollingWindows` (lines 177-187). -/
def computeRollingWindows (timestamps : List Int) (now : Int) : RollingWindows :=
  let day7 := now - 7 * 86400
  let day30 := now - 30 * 86400
  let day90 := now - 90 * 86400
  { last7d := (timestamps.filter (fun ts => decide (day7 ≤ ts))).length
    last30d := (timestamps.filter (fun ts => decide (day30 ≤ ts))).length
    last90d := (timestamps.filter (fun ts => decide (day90 ≤ ts))).length }

structure ActivityConsistency where
  activeDays : Nat
  maxGap : Int
deriving Repr, DecidableEq

/-- `Math.floor(ts / 86400)`: the calendar-day bucket of a timestamp. -/
def dayBucket (ts : Int) : Int := Int.fdiv ts 86400

/-- One iteration of the gap walk: the pair is (max gap so far, previous
day); the gap before `day` is `max 0 (day - prev - 1)`. -/
def gapStep (p : Int × Int) (day : Int) : Int × Int :=
  (max p.1 (max 0 (day - p.2 - 1)), day)

/-- metrics.js `computeActivityConsistency` (lines 196-232). -/
def computeActivityConsistency (timestamps : List Int) (now : Int) :
    ActivityConsistency :=
  let day30Ago := now - 30 * 86400
  let buckets :=
    ((timestamps.filter (fun ts => decide (day30Ago ≤ ts))).map dayBucket).dedup
  if buckets = [] then { activeDays := 0, maxGap := 30 }
  else
    let days := sortAsc buckets
    let today := Int.fdiv now 86400
    let day30Start := Int.fdiv day30Ago 86400
    let st := days.foldl gapStep (0, day30Start)
    { activeDays := buckets.length, maxGap := max st.1 (max 0 (today - st.2)) }

/-- metrics.js `calculateScore` (lines 242-256). -/
def calculateScore (daysActive : ℚ) (volumeSats : Int) (successfulOrders : Nat) :
    Int :=
  let s1 : ℚ := min 1 (daysActive / 365) * 30
  let btcVol : ℚ := (volumeSats : ℚ) / 100000000
  let s2 : ℚ := min 1 (btcVol / 1) * 40
  let s3 : ℚ := min 1 ((successfulOrders : ℚ) / 100) * 30
  Int.floor (s1 + s2 + s3)

/-- The running minimum step the `firstOrderTs` tracker performs once it
has seen at least one event. -/
def minStep (a : Int) (e : NEvent) : Int :=
  if e.created_at < a then e.created_at else a

/-- The greatest `created_at` among `l`, starting from `t`. -/
def maxTsFrom (t : Int) (l : List NEvent) : Int :=
  l.foldl (fun a x => max a x.created_at) t

/-- The greatest `created_at` of a batch of events, `none` when the batch
is empty: the reference value for the liveness metrics. -/
def maxCreatedAt (l : List NEvent) : Option Int :=
  match l with
  | [] => none
  | e :: rest => some (maxTsFrom e.created_at rest)

/-- The earliest-observed event of a group attaining the group's greatest
`created_at`: the reference value the dedup store keeps per identifier. -/
def findFirstMax (grp : List NEvent) : Option NEvent :=
  match grp with
  | [] => none
  | b :: rest =>
    (b :: rest).find? (fun e => decide (e.created_at = maxTsFrom b.created_at rest))

/-- How the dedup store combines a stored candidate with one more event of
the same identifier. -/
def pickLater (a : Option NEvent) (e : NEvent) : Option NEvent :=
  match a with
  | none => some e
  | some ex => if ex.created_at < e.created_at then some e else some ex

/-- The clamped inactivity gaps of a day list: for each day, the count of
days strictly between it and the previous one, seeded at `prev`. -/
def gapsFrom (prev : Int) : List Int → List Int
  | [] => []
  | d :: ds => max 0 (d - prev - 1) :: gapsFrom d ds

/-- The last element of a day list, or the seed when the list is empty. -/
def lastFrom (prev : Int) : List Int → Int
  | [] => prev
  | d :: ds => lastFrom d ds

/-- Maximum of a list of integers, 0 when empty. -/
def listMax (l : List Int) : Int := l.foldr max 0

/-- The report object metrics.js returns. -/
structure MetricsReport where
  firstActivity : Option Int
  daysActive : ℚ
  hasDevFeeEvents : Bool
  lastTrade : Option Int
  daysSinceLast : Int
  trades7d : Nat
  trades30d : Nat
  trades90d : Nat
  activeDays30d : Nat
  maxInactiveGap : Int
  successfulTrades : Nat
  totalVolumeSats : Int
  minTrade : Int
  maxTrade : Int
  meanTrade : ℚ
  medianTrade : Int
  hasTradeStats : Bool
  trustScore : Int
  totalOrderEvents : Nat
  uniqueOrders : Nat
  devFeeCount : Nat
deriving Repr, DecidableEq

/-- metrics.js `computeMetrics` (lines 12-138).  The parameter `now`
models the value the internal `Date.now() / 1000` clock read had at the
moment of the call (metrics.js line 13); it is not a parameter of the JS
function. -/
def computeMetrics (devFeeEvents orderEvents : List NEvent) (now : Int) :
    MetricsReport :=
  let firstDev := firstDevFeeTs devFeeEvents
  let lastTs := lastOrderTs orderEvents
  let agg := aggregateOrders orderEvents
  let stats := computeTradeStats agg.tradeAmounts
  let rw := computeRollingWindows agg.successfulTradeTimestamps now
  let ac := computeActivityConsistency agg.successfulTradeTimestamps now
  let dA := daysActiveOf devFeeEvents orderEvents now
  { firstActivity := firstDev
    daysActive := dA
    hasDevFeeEvents := firstDev.isSome
    lastTrade := if 0 < lastTs then some lastTs else none
    daysSinceLast := if 0 < lastTs then Int.fdiv (now - lastTs) 86400 else 0
    trades7d := rw.last7d
    trades30d := rw.last30d
    trades90d := rw.last90d
    activeDays30d := ac.activeDays
    maxInactiveGap := ac.maxGap
    successfulTrades := agg.successfulOrders
    totalVolumeSats := agg.totalVolumeSats
    minTrade := stats.min
    maxTrade := stats.max
    meanTrade := stats.mean
    medianTrade := stats.median
    hasTradeStats := decide (0 < agg.tradeAmounts.length)
    trustScore := calculateScore dA agg.totalVolumeSats agg.successfulOrders
    totalOrderEvents := orderEvents.length
    uniqueOrders := (dedupOrders orderEvents).length
    devFeeCount := devFeeEvents.length }

/-! ### Properties of the ascending sort -/

theorem insertAsc_perm (x : Int) (l : List Int) : (insertAsc x l).Perm (x :: l) := by
  induction l with
  | nil => exact List.Perm.refl _
  | cons y ys ih =>
    by_cases h : x ≤ y
    · rw [insertAsc, if_pos h]
    · rw [insertAsc, if_neg h]
      exact (ih.cons y).trans (List.Perm.swap x y ys)

theorem sortAsc_perm (l : List Int) : (sortAsc l).Perm l := by
  induction l with
  | nil => exact List.Perm.refl _
  | cons x xs ih => exact (insertAsc_perm x (sortAsc xs)).trans (ih.cons x)

theorem insertAsc_sorted (x : Int) {l : List Int} (h : l.Sorted (· ≤ ·)) :
    (insertAsc x l).Sorted (· ≤ ·) := by
  induction l with
  | nil => simp [insertAsc]
  | cons y ys ih =>
    rw [List.sorted_cons] at h
    by_cases hxy : x ≤ y
    · rw [insertAsc, if_pos hxy, List.sorted_cons]
      refine ⟨fun b hb => ?_, List.sorted_cons.mpr h⟩
      rcases List.mem_cons.mp hb with rfl | hb
      · exact hxy
      · exact hxy.trans (h.1 b hb)
    · rw [insertAsc, if_neg hxy, List.sorted_cons]
      refine ⟨fun b hb => ?_, ih h.2⟩
      rcases List.mem_cons.mp ((insertAsc_perm x ys).mem_iff.mp hb) with rfl | hb
      · exact le_of_not_le hxy
      · exact h.1 b hb

theorem sortAsc_sorted (l : List Int) : (sortAsc l).Sorted (· ≤ ·) := by
  induction l with
  | nil => simp [sortAsc]
  | cons x xs ih => exact insertAsc_sorted x ih

theorem sortAsc_head_min (l : List Int) (hne : l ≠ []) :
    (sortAsc l).headD 0 ∈ l ∧ ∀ x ∈ l, (sortAsc l).headD 0 ≤ x := by
  rcases hs : sortAsc l with _ | ⟨v, rest⟩
  · exfalso
    apply hne
    have hp := sortAsc_perm l
    rw [hs] at hp
    exact hp.symm.eq_nil
  · have hsort := sortAsc_sorted l
    rw [hs] at hsort
    constructor
    · exact (sortAsc_perm l).mem_iff.mp (by rw [hs]; exact List.mem_cons_self v rest)
    · intro x hx
      have hx2 : x ∈ v :: rest := by
        rw [← hs]; exact (sortAsc_perm l).mem_iff.mpr hx
      rcases List.mem_cons.mp hx2 with rfl | hx2
      · exact le_refl _
      · exact List.rel_of_sorted_cons hsort x hx2

theorem sorted_getLastD_max (s : List Int) (hs : s.Sorted (· ≤ ·)) (hne : s ≠ []) :
    s.getLastD 0 ∈ s ∧ ∀ x ∈ s, x ≤ s.getLastD 0 := by
  induction s with
  | nil => exact absurd rfl hne
  | cons y ys ih =>
    rcases ys with _ | ⟨z, zs⟩
    · simp
    · have he : ((y :: z :: zs).getLastD 0 : Int) = (z :: zs).getLastD 0 := by
        simp [List.getLastD_cons]
      have htail := ih (List.sorted_cons.mp hs).2 (by simp)
      rw [he]
      refine ⟨List.mem_cons_of_mem y htail.1, fun x hx => ?_⟩
      rcases List.mem_cons.mp hx with rfl | hx
      · exact (List.sorted_cons.mp hs).1 _ htail.1
      · exact htail.2 x hx

theorem sortAsc_getLast_max (l : List Int) (hne : l ≠ []) :
    (sortAsc l).getLastD 0 ∈ l ∧ ∀ x ∈ l, x ≤ (sortAsc l).getLastD 0 := by
  have hne2 : sortAsc l ≠ [] := by
    intro h
    apply hne
    have hp := sortAsc_perm l
    rw [h] at hp
    exact hp.symm.eq_nil
  have h := sorted_getLastD_max (sortAsc l) (sortAsc_sorted l) hne2
  exact ⟨(sortAsc_perm l).mem_iff.mp h.1,
    fun x hx => h.2 x ((sortAsc_perm l).mem_iff.mpr hx)⟩

theorem foldl_add_eq_sum (l : List Int) : ∀ a : Int, l.foldl (fun x v => x + v) a = a + l.sum := by
  induction l with
  | nil => intro a; simp
  | cons y ys ih =>
    intro a
    rw [List.foldl_cons, ih, List.sum_cons]
    ring

/-- C5: for a non-empty amount list, `computeTradeStats` returns the
extrema of the (proven sorted, proven permutation) ascending sort, the
exact rational mean `sum / count`, and the middle-of-sort median with the
even count floor-averaged; the empty list yields all zeros; and on
`[10, 10, 10, 1000]` the mean is 257.5 while the median is 10. -/
theorem C5_computeTradeStats (l : List Int) :
    (l = [] → computeTradeStats l = ⟨0, 0, 0, 0⟩) ∧
    (l ≠ [] →
      (sortAsc l).Perm l ∧ (sortAsc l).Sorted (· ≤ ·) ∧
      (computeTradeStats l).min ∈ l ∧ (∀ x ∈ l, (computeTradeStats l).min ≤ x) ∧
      (computeTradeStats l).max ∈ l ∧ (∀ x ∈ l, x ≤ (computeTradeStats l).max) ∧
      (computeTradeStats l).mean = (l.sum : ℚ) / (l.length : ℚ) ∧
      (computeTradeStats l).median =
        (if (sortAsc l).length % 2 = 0 then
          Int.fdiv ((sortAsc l).getD ((sortAsc l).length / 2 - 1) 0 +
            (sortAsc l).getD ((sortAsc l).length / 2) 0) 2
        else (sortAsc l).getD ((sortAsc l).length / 2) 0)) ∧
    (computeTradeStats [10, 10, 10, 1000]).mean = 515 / 2 ∧
    (computeTradeStats [10, 10, 10, 1000]).median = 10 := by
  refine ⟨fun h => by rw [computeTradeStats, if_pos h], fun hne => ?_, ?_, ?_⟩
  · have hval : computeTradeStats l =
        ⟨(sortAsc l).headD 0, (sortAsc l).getLastD 0,
          ((l.foldl (fun a v => a + v) (0 : Int) : Int) : ℚ) / (l.length : ℚ),
          if (sortAsc l).length % 2 = 0 then
            Int.fdiv ((sortAsc l).getD ((sortAsc l).length / 2 - 1) 0 +
              (sortAsc l).getD ((sortAsc l).length / 2) 0) 2
          else (sortAsc l).getD ((sortAsc l).length / 2) 0⟩ := by
      rw [computeTradeStats, if_neg hne]
    have hmin := sortAsc_head_min l hne
    have hmax := sortAsc_getLast_max l hne
    refine ⟨sortAsc_perm l, sortAsc_sorted l, ?_, ?_, ?_, ?_, ?_, ?_⟩
    · rw [hval]; exact hmin.1
    · rw [hval]; exact hmin.2
    · rw [hval]; exact hmax.1
    · rw [hval]; exact hmax.2
    · rw [hval]
      show ((l.foldl (fun a v => a + v) (0 : Int) : Int) : ℚ) / (l.length : ℚ) =
        (l.sum : ℚ) / (l.length : ℚ)
      rw [foldl_add_eq_sum, zero_add]
    · rw [hval]
  · rw [computeTradeStats]
    rw [if_neg (by decide)]
    norm_num
  · rw [computeTradeStats]
    rw [if_neg (by decide)]
    norm_num [sortAsc, insertAsc]
    decide

theorem filter_length_mono {p q : Int → Bool} (l : List Int)
    (h : ∀ x, p x = true → q x = true) :
    (l.filter p).length ≤ (l.filter q).length := by
  induction l with
  | nil => exact le_refl _
  | cons a as ih =>
    rw [List.filter_cons, List.filter_cons]
    by_cases hp : p a = true
    · rw [if_pos hp, if_pos (h a hp)]
      simpa using ih
    · rw [if_neg hp]
      by_cases hq : q a = true
      · rw [if_pos hq]
        exact ih.trans (Nat.le_succ _)
      · rw [if_neg hq]
        exact ih

/-- C6: each rolling window counts the timestamps at or after
`now - W·86400` (inclusive lower bound, no upper bound), and the counts
are monotone in the window width: `trades7d ≤ trades30d ≤ trades90d`. -/
theorem C6_rollingWindows (timestamps : List Int) (now : Int) :
    (computeRollingWindows timestamps now).last7d =
      (timestamps.filter (fun ts => decide (now - 7 * 86400 ≤ ts))).length ∧
    (computeRollingWindows timestamps now).last30d =
      (timestamps.filter (fun ts => decide (now - 30 * 86400 ≤ ts))).length ∧
    (computeRollingWindows timestamps now).last90d =
      (timestamps.filter (fun ts => decide (now - 90 * 86400 ≤ ts))).length ∧
    (computeRollingWindows timestamps now).last7d ≤
      (computeRollingWindows timestamps now).last30d ∧
    (computeRollingWindows timestamps now).last30d ≤
      (computeRollingWindows timestamps now).last90d := by
  refine ⟨rfl, rfl, rfl, ?_, ?_⟩
  · apply filter_length_mono
    intro x hx
    simp only [decide_eq_true_eq] at hx ⊢
    omega
  · apply filter_length_mono
    intro x hx
    simp only [decide_eq_true_eq] at hx ⊢
    omega

/-- C4: the trust score is the floor (applied once, to the sum) of three
independently capped linear contributions, lies in `[0, 100]` for
non-negative inputs, and attains 100 at (365 days, 1e8 sats, 100 trades)
and 0 at (0, 0, 0). -/
theorem C4_calculateScore (d : ℚ) (v : Int) (t : Nat) (hd : 0 ≤ d) (hv : 0 ≤ v) :
    calculateScore d v t =
      Int.floor (min 1 (d / 365) * 30 + min 1 ((v : ℚ) / 100000000) * 40 +
        min 1 ((t : ℚ) / 100) * 30) ∧
    0 ≤ calculateScore d v t ∧ calculateScore d v t ≤ 100 ∧
    calculateScore 365 100000000 100 = 100 ∧ calculateScore 0 0 0 = 0 := by
  have h1lo : (0 : ℚ) ≤ min 1 (d / 365) * 30 := by
    have : (0 : ℚ) ≤ min 1 (d / 365) := le_min (by norm_num) (by positivity)
    positivity
  have h2lo : (0 : ℚ) ≤ min 1 ((v : ℚ) / 100000000) * 40 := by
    have hv2 : (0 : ℚ) ≤ (v : ℚ) := by exact_mod_cast hv
    have : (0 : ℚ) ≤ min 1 ((v : ℚ) / 100000000) := le_min (by norm_num) (by positivity)
    positivity
  have h3lo : (0 : ℚ) ≤ min 1 ((t : ℚ) / 100) * 30 := by
    have ht2 : (0 : ℚ) ≤ (t : ℚ) := by positivity
    have : (0 : ℚ) ≤ min 1 ((t : ℚ) / 100) := le_min (by norm_num) (by positivity)
    positivity
  have h1hi : min 1 (d / 365) * 30 ≤ 30 := by
    have := min_le_left (1 : ℚ) (d / 365)
    nlinarith
  have h2hi : min 1 ((v : ℚ) / 100000000) * 40 ≤ 40 := by
    have := min_le_left (1 : ℚ) ((v : ℚ) / 100000000)
    nlinarith
  have h3hi : min 1 ((t : ℚ) / 100) * 30 ≤ 30 := by
    have := min_le_left (1 : ℚ) ((t : ℚ) / 100)
    nlinarith
  have heq : calculateScore d v t =
      Int.floor (min 1 (d / 365) * 30 + min 1 ((v : ℚ) / 100000000) * 40 +
        min 1 ((t : ℚ) / 100) * 30) := by
    simp only [calculateScore, div_one]
  refine ⟨heq, ?_, ?_, by norm_num [calculateScore], by norm_num [calculateScore]⟩
  · rw [heq]
    have : (0 : ℚ) ≤ min 1 (d / 365) * 30 + min 1 ((v : ℚ) / 100000000) * 40 +
        min 1 ((t : ℚ) / 100) * 30 := by linarith
    exact_mod_cast Int.le_floor.mpr (by exact_mod_cast this)
  · rw [heq]
    have hsum : min 1 (d / 365) * 30 + min 1 ((v : ℚ) / 100000000) * 40 +
        min 1 ((t : ℚ) / 100) * 30 ≤ 100 := by linarith
    calc Int.floor (min 1 (d / 365) * 30 + min 1 ((v : ℚ) / 100000000) * 40 +
          min 1 ((t : ℚ) / 100) * 30) ≤ Int.floor (100 : ℚ) := Int.floor_le_floor hsum
      _ = 100 := by norm_num

theorem C4_calculateScore_witness :
    calculateScore 0 0 0 =
      Int.floor (min 1 ((0 : ℚ) / 365) * 30 + min 1 (((0 : Int) : ℚ) / 100000000) * 40 +
        min 1 (((0 : Nat) : ℚ) / 100) * 30) ∧
    0 ≤ calculateScore 0 0 0 ∧ calculateScore 0 0 0 ≤ 100 ∧
    calculateScore 365 100000000 100 = 100 ∧ calculateScore 0 0 0 = 0 :=
  C4_calculateScore 0 0 0 le_rfl le_rfl

/-- C1 (amended): the report is a deterministic function of the two event
collections together with the value the internal clock read had at the
moment of the call; two invocations that observe the same clock value
yield identical reports. -/
theorem C1_determinism (devFeeEvents orderEvents : List NEvent) (n1 n2 : Int)
    (h : n1 = n2) :
    computeMetrics devFeeEvents orderEvents n1 =
      computeMetrics devFeeEvents orderEvents n2 := by
  rw [h]

theorem C1_determinism_witness :
    computeMetrics [] [] 0 = computeMetrics [] [] 0 :=
  C1_determinism [] [] 0 0 rfl

/-- C1 counterexample: with both event collections fixed, the report still
changes with the internal clock reading (`Date.now()` in metrics.js line
13), so the current time is not an explicit parameter of the JS function
and the report is not a function of the event collections alone. -/
theorem C1_clock_counterexample :
    computeMetrics [⟨500, []⟩] [] 1000 ≠ computeMetrics [⟨500, []⟩] [] 87400 := by
  intro h
  have h2 := congrArg MetricsReport.daysActive h
  norm_num [computeMetrics, daysActiveOf, firstDevFeeTs, sortAsc, insertAsc] at h2

/-- C3 counterexample: a future-dated anchor event (dev fee event one day
after `now`) makes `daysActive` negative; the anchor branch of metrics.js
lines 79-81 performs no clamping. -/
theorem C3_negative_daysActive :
    (computeMetrics [⟨86400, []⟩] [] 0).daysActive < 0 := by
  norm_num [computeMetrics, daysActiveOf, firstDevFeeTs, sortAsc, insertAsc]

theorem firstDevFeeTs_mem (dev : List NEvent) (ts : Int)
    (h : firstDevFeeTs dev = some ts) : ∃ e ∈ dev, e.created_at = ts := by
  rw [firstDevFeeTs] at h
  rcases hs : sortAsc (dev.map (fun e => e.created_at)) with _ | ⟨t, rest⟩
  · rw [hs] at h
    exact absurd h (by simp)
  · rw [hs] at h
    have ht : t = ts := by injection h
    have hmem : t ∈ dev.map (fun e => e.created_at) :=
      (sortAsc_perm _).mem_iff.mp (by rw [hs]; exact List.mem_cons_self _ _)
    obtain ⟨e, he, heq⟩ := List.mem_map.mp hmem
    exact ⟨e, he, by rw [heq, ht]⟩

theorem trackFirst_some (v : Int) (e : NEvent) :
    trackFirst (some v) e = some (minStep v e) := by
  by_cases h : e.created_at < v <;> simp [trackFirst, minStep, h]

theorem foldl_trackFirst_some (l : List NEvent) :
    ∀ v : Int, l.foldl trackFirst (some v) = some (l.foldl minStep v) := by
  induction l with
  | nil => intro v; rfl
  | cons e rest ih =>
    intro v
    rw [List.foldl_cons, List.foldl_cons, trackFirst_some, ih]

theorem foldl_minStep_le_trackLast (l : List NEvent) :
    ∀ a b : Int, a ≤ b → l.foldl minStep a ≤ l.foldl trackLast b := by
  induction l with
  | nil => intro a b h; exact h
  | cons e rest ih =>
    intro a b h
    rw [List.foldl_cons, List.foldl_cons]
    apply ih
    unfold minStep trackLast
    split_ifs <;> omega

theorem firstOrderTs_le_lastOrderTs (ord : List NEvent) :
    (firstOrderTsOpt ord).getD 0 ≤ lastOrderTs ord := by
  cases ord with
  | nil => exact le_refl 0
  | cons e rest =>
    rw [firstOrderTsOpt, lastOrderTs, List.foldl_cons, List.foldl_cons]
    have h1 : trackFirst none e = some e.created_at := rfl
    rw [h1, foldl_trackFirst_some, Option.getD_some]
    apply foldl_minStep_le_trackLast
    unfold trackLast
    split_ifs <;> omega

/-- C3 (amended): `daysActive` involves no division by zero (the divisor
is the constant 86400), the order-timestamp fallback and the no-event
branch are always non-negative (one order event yields exactly 0), and
the anchor branch is non-negative whenever no anchor is dated after
`now`; a future-dated anchor is not clamped (see the counterexample). -/
theorem C3_daysActive_nonneg (dev ord : List NEvent) (now : Int)
    (h : ∀ e ∈ dev, e.created_at ≤ now) :
    0 ≤ (computeMetrics dev ord now).daysActive := by
  show 0 ≤ daysActiveOf dev ord now
  rw [daysActiveOf]
  rcases hfd : firstDevFeeTs dev with _ | ts
  · show 0 ≤ if 0 < lastOrderTs ord then
        ((lastOrderTs ord - (firstOrderTsOpt ord).getD 0 : Int) : ℚ) / 86400
      else 0
    split_ifs with hpos
    · apply div_nonneg _ (by norm_num)
      have hle := firstOrderTs_le_lastOrderTs ord
      have : (0 : Int) ≤ lastOrderTs ord - (firstOrderTsOpt ord).getD 0 := by omega
      exact_mod_cast this
    · exact le_refl 0
  · show 0 ≤ ((now - ts : Int) : ℚ) / 86400
    obtain ⟨e, he, heq⟩ := firstDevFeeTs_mem dev ts hfd
    have hts : ts ≤ now := heq ▸ h e he
    apply div_nonneg _ (by norm_num)
    have : (0 : Int) ≤ now - ts := by omega
    exact_mod_cast this

theorem C3_daysActive_nonneg_witness :
    0 ≤ (computeMetrics [⟨0, []⟩] [] 5).daysActive :=
  C3_daysActive_nonneg [⟨0, []⟩] [] 5 (by
    intro e he
    rw [List.mem_singleton] at he
    subst he
    decide)

/-! ### Properties of the dedup store -/

theorem mapGet_nil (q : String) : mapGet [] q = none := rfl

theorem mapGet_cons (p : String × NEvent) (rest : List (String × NEvent)) (q : String) :
    mapGet (p :: rest) q = if p.1 = q then some p.2 else mapGet rest q := by
  by_cases h : p.1 = q
  · rw [if_pos h, mapGet, List.find?_cons_of_pos _ (by simpa using h)]
  · rw [if_neg h, mapGet, List.find?_cons_of_neg _ (by simpa using h)]
    rfl

theorem mapGet_mapSet_self (m : List (String × NEvent)) (k : String) (v : NEvent) :
    mapGet (mapSet m k v) k = some v := by
  induction m with
  | nil => simp [mapSet, mapGet_cons]
  | cons p rest ih =>
    by_cases h : p.1 = k
    · rw [mapSet, if_pos h, mapGet_cons, if_pos rfl]
    · rw [mapSet, if_neg h, mapGet_cons, if_neg h]
      exact ih

theorem mapGet_mapSet_ne (m : List (String × NEvent)) {k q : String} (v : NEvent)
    (h : q ≠ k) : mapGet (mapSet m k v) q = mapGet m q := by
  induction m with
  | nil =>
    rw [mapSet, mapGet_cons, if_neg (fun hc => h hc.symm)]
  | cons p rest ih =>
    by_cases hp : p.1 = k
    · rw [mapSet, if_pos hp, mapGet_cons, if_neg (fun hc => h hc.symm), mapGet_cons,
        if_neg (fun hc => h (hp ▸ hc).symm)]
    · rw [mapSet, if_neg hp, mapGet_cons, mapGet_cons, ih]

theorem mapGet_eq_none_iff (m : List (String × NEvent)) (k : String) :
    mapGet m k = none ↔ k ∉ m.map Prod.fst := by
  induction m with
  | nil => simp [mapGet_nil]
  | cons p rest ih =>
    rw [mapGet_cons]
    by_cases h : p.1 = k
    · simp [h]
    · simp only [if_neg h, List.map_cons, List.mem_cons, ih]
      constructor
      · intro hn hc
        rcases hc with hc | hc
        · exact h hc.symm
        · exact hn hc
      · intro hn
        exact fun hc => hn (Or.inr hc)

theorem mem_keys_of_mapGet (m : List (String × NEvent)) (k : String) (v : NEvent)
    (h : mapGet m k = some v) : k ∈ m.map Prod.fst := by
  by_contra hn
  rw [← mapGet_eq_none_iff] at hn
  rw [hn] at h
  exact Option.noConfusion h

theorem keys_mapSet_of_mem (m : List (String × NEvent)) {k : String} (v : NEvent)
    (h : k ∈ m.map Prod.fst) :
    (mapSet m k v).map Prod.fst = m.map Prod.fst := by
  induction m with
  | nil => simp at h
  | cons p rest ih =>
    by_cases hp : p.1 = k
    · rw [mapSet, if_pos hp]
      simp [hp]
    · have hk : k ∈ rest.map Prod.fst := by
        have h2 := h
        rw [List.map_cons, List.mem_cons] at h2
        rcases h2 with hc | hc
        · exact absurd hc.symm hp
        · exact hc
      rw [mapSet, if_neg hp, List.map_cons, List.map_cons, ih hk]

theorem mapSet_of_not_mem (m : List (String × NEvent)) {k : String} (v : NEvent)
    (h : k ∉ m.map Prod.fst) : mapSet m k v = m ++ [(k, v)] := by
  induction m with
  | nil => rfl
  | cons p rest ih =>
    have hp : p.1 ≠ k := fun hc => h (by simp [hc])
    have hk : k ∉ rest.map Prod.fst := fun hm => h (by simp [hm])
    rw [mapSet, if_neg hp, ih hk, List.cons_append]

theorem mapGet_dedupStep (m : List (String × NEvent)) (e : NEvent) (k : String) :
    mapGet (dedupStep m e) k =
      if orderIdOf e = some k then pickLater (mapGet m k) e else mapGet m k := by
  rcases ho : orderIdOf e with _ | id
  · simp [dedupStep, ho]
  · rcases hg : mapGet m id with _ | ex
    · simp only [dedupStep, ho, hg]
      by_cases hk : id = k
      · subst hk
        rw [if_pos rfl, mapGet_mapSet_self, hg]
        rfl
      · rw [if_neg (by simpa using hk), mapGet_mapSet_ne _ _ (fun hq => hk hq.symm)]
    · simp only [dedupStep, ho, hg]
      by_cases hk : id = k
      · subst hk
        by_cases hrep : ex.created_at < e.created_at
        · rw [if_pos hrep, if_pos rfl, mapGet_mapSet_self, hg]
          simp [pickLater, hrep]
        · rw [if_neg hrep, if_pos rfl, hg]
          simp [pickLater, hrep]
      · have hne : ¬(some id = some k) := by simpa using hk
        by_cases hrep : ex.created_at < e.created_at
        · rw [if_pos hrep, if_neg hne, mapGet_mapSet_ne _ _ (fun hq => hk hq.symm)]
        · rw [if_neg hrep, if_neg hne]

theorem mapGet_foldl_dedupStep (l : List NEvent) :
    ∀ (m : List (String × NEvent)) (k : String),
      mapGet (l.foldl dedupStep m) k =
        (l.filter (fun e => decide (orderIdOf e = some k))).foldl pickLater (mapGet m k) := by
  induction l with
  | nil => intro m k; rfl
  | cons e es ih =>
    intro m k
    rw [List.foldl_cons, ih, List.filter_cons]
    by_cases h : orderIdOf e = some k
    · rw [if_pos (by simpa using h), List.foldl_cons, mapGet_dedupStep, if_pos h]
    · rw [if_neg (by simpa using h), mapGet_dedupStep, if_neg h]

theorem maxTsFrom_cons (t : Int) (e : NEvent) (l : List NEvent) :
    maxTsFrom t (e :: l) = maxTsFrom (max t e.created_at) l := rfl

theorem le_maxTsFrom (l : List NEvent) : ∀ t : Int, t ≤ maxTsFrom t l := by
  induction l with
  | nil => intro t; exact le_refl t
  | cons e es ih =>
    intro t
    rw [maxTsFrom_cons]
    exact (le_max_left t e.created_at).trans (ih _)

theorem foldl_pickLater_some (rest : List NEvent) :
    ∀ b : NEvent, rest.foldl pickLater (some b) =
      (b :: rest).find? (fun e => decide (e.created_at = maxTsFrom b.created_at rest)) := by
  induction rest with
  | nil =>
    intro b
    rw [List.foldl_nil, List.find?_cons_of_pos _ (by simp [maxTsFrom])]
  | cons e es ih =>
    intro b
    rw [List.foldl_cons]
    by_cases hbe : b.created_at < e.created_at
    · have hstep : pickLater (some b) e = some e := by simp [pickLater, hbe]
      rw [hstep, ih e]
      have hM : maxTsFrom b.created_at (e :: es) = maxTsFrom e.created_at es := by
        rw [maxTsFrom_cons, max_eq_right (le_of_lt hbe)]
      rw [hM]
      conv_rhs => rw [List.find?_cons_of_neg _ (by
        simp only [decide_eq_true_eq]
        have hle := le_maxTsFrom es e.created_at
        omega)]
    · have hstep : pickLater (some b) e = some b := by simp [pickLater, hbe]
      rw [hstep, ih b]
      have hM : maxTsFrom b.created_at (e :: es) = maxTsFrom b.created_at es := by
        rw [maxTsFrom_cons, max_eq_left (by omega)]
      rw [hM]
      by_cases hb : b.created_at = maxTsFrom b.created_at es
      · rw [List.find?_cons_of_pos _ (by simpa using hb),
          List.find?_cons_of_pos _ (by simpa using hb)]
      · rw [List.find?_cons_of_neg _ (by simpa using hb),
          List.find?_cons_of_neg _ (by simpa using hb)]
        rw [List.find?_cons_of_neg _ (by
          simp only [decide_eq_true_eq]
          have hle := le_maxTsFrom es b.created_at
          omega)]

theorem foldl_pickLater_none (grp : List NEvent) :
    grp.foldl pickLater none = findFirstMax grp := by
  cases grp with
  | nil => rfl
  | cons b rest => exact foldl_pickLater_some rest b

theorem keys_nodup_dedupStep (m : List (String × NEvent)) (e : NEvent)
    (h : (m.map Prod.fst).Nodup) : ((dedupStep m e).map Prod.fst).Nodup := by
  rcases ho : orderIdOf e with _ | id
  · simpa [dedupStep, ho] using h
  · rcases hg : mapGet m id with _ | ex
    · simp only [dedupStep, ho, hg]
      have hnm : id ∉ m.map Prod.fst := (mapGet_eq_none_iff m id).mp hg
      rw [mapSet_of_not_mem m e hnm, List.map_append]
      simp [List.nodup_append, h, hnm]
    · simp only [dedupStep, ho, hg]
      split_ifs with hrep
      · rw [keys_mapSet_of_mem m e (mem_keys_of_mapGet m id ex hg)]
        exact h
      · exact h

theorem dedupOrders_keys_nodup_aux (l : List NEvent) :
    ∀ m : List (String × NEvent), (m.map Prod.fst).Nodup →
      ((l.foldl dedupStep m).map Prod.fst).Nodup := by
  induction l with
  | nil => intro m hm; exact hm
  | cons e es ih =>
    intro m hm
    rw [List.foldl_cons]
    exact ih _ (keys_nodup_dedupStep m e hm)

theorem dedupOrders_keys_nodup (l : List NEvent) :
    ((dedupOrders l).map Prod.fst).Nodup :=
  dedupOrders_keys_nodup_aux l [] (by simp)

/-- C2 (amended): the dedup store holds exactly one record per distinct
truthy order identifier (its key list has no duplicates), and the record
stored under an identifier is the earliest-iterated event attaining the
greatest `created_at` among the events carrying that identifier: a stored
record is replaced only on a strictly greater timestamp, so on equal
timestamps the earlier-iterated event wins (not the later one). -/
theorem C2_dedup_lastWriteWins (events : List NEvent) :
    ((dedupOrders events).map Prod.fst).Nodup ∧
    ∀ k : String, mapGet (dedupOrders events) k =
      findFirstMax (events.filter (fun e => decide (orderIdOf e = some k))) := by
  refine ⟨dedupOrders_keys_nodup events, fun k => ?_⟩
  rw [dedupOrders, mapGet_foldl_dedupStep]
  exact foldl_pickLater_none _

/-- C2 counterexample: two events sharing identifier `x` and the same
timestamp 100; metrics.js keeps the earlier-iterated event (the stored
record is replaced only when the incoming timestamp is strictly greater),
refuting the claim that the later-iterated event wins the tie. -/
theorem C2_tie_counterexample :
    mapGet (dedupOrders [⟨100, [["d", "x"], ["s", "success"]]⟩,
        ⟨100, [["d", "x"], ["s", "pending"]]⟩]) "x" =
      some ⟨100, [["d", "x"], ["s", "success"]]⟩ ∧
    mapGet (dedupOrders [⟨100, [["d", "x"], ["s", "success"]]⟩,
        ⟨100, [["d", "x"], ["s", "pending"]]⟩]) "x" ≠
      some ⟨100, [["d", "x"], ["s", "pending"]]⟩ := by
  decide

theorem mem_mapSet (m : List (String × NEvent)) (k : String) (v : NEvent) :
    ∀ p ∈ mapSet m k v, p = (k, v) ∨ p ∈ m := by
  induction m with
  | nil =>
    intro p hp
    rw [mapSet] at hp
    exact Or.inl (List.mem_singleton.mp hp)
  | cons q rest ih =>
    intro p hp
    by_cases h : q.1 = k
    · rw [mapSet, if_pos h] at hp
      rcases List.mem_cons.mp hp with rfl | hp
      · exact Or.inl rfl
      · exact Or.inr (List.mem_cons_of_mem q hp)
    · rw [mapSet, if_neg h] at hp
      rcases List.mem_cons.mp hp with rfl | hp
      · exact Or.inr (List.mem_cons_self _ _)
      · rcases ih p hp with h1 | h1
        · exact Or.inl h1
        · exact Or.inr (List.mem_cons_of_mem q h1)

theorem dedupStep_wellKeyed (m : List (String × NEvent)) (e : NEvent)
    (h : ∀ p ∈ m, orderIdOf p.2 = some p.1) :
    ∀ p ∈ dedupStep m e, orderIdOf p.2 = some p.1 := by
  rcases ho : orderIdOf e with _ | id
  · simpa [dedupStep, ho] using h
  · rcases hg : mapGet m id with _ | ex
    · simp only [dedupStep, ho, hg]
      intro p hp
      rcases mem_mapSet m id e p hp with rfl | hp
      · exact ho
      · exact h p hp
    · simp only [dedupStep, ho, hg]
      split_ifs with hrep
      · intro p hp
        rcases mem_mapSet m id e p hp with rfl | hp
        · exact ho
        · exact h p hp
      · exact h

theorem dedupOrders_wellKeyed_aux (l : List NEvent) :
    ∀ m : List (String × NEvent), (∀ p ∈ m, orderIdOf p.2 = some p.1) →
      ∀ p ∈ l.foldl dedupStep m, orderIdOf p.2 = some p.1 := by
  induction l with
  | nil => intro m hm; exact hm
  | cons e es ih =>
    intro m hm
    rw [List.foldl_cons]
    exact ih _ (dedupStep_wellKeyed m e hm)

theorem dedupOrders_wellKeyed (l : List NEvent) :
    ∀ p ∈ dedupOrders l, orderIdOf p.2 = some p.1 :=
  dedupOrders_wellKeyed_aux l [] (by simp)

theorem foldl_dedupStep_values (l : List (String × NEvent)) :
    ∀ m : List (String × NEvent),
      (∀ p ∈ l, orderIdOf p.2 = some p.1) →
      ((m ++ l).map Prod.fst).Nodup →
      (mapValues l).foldl dedupStep m = m ++ l := by
  induction l with
  | nil => intro m _ _; simp [mapValues]
  | cons p rest ih =>
    intro m hwk hnd
    obtain ⟨k, v⟩ := p
    have hmv : mapValues ((k, v) :: rest) = v :: mapValues rest := rfl
    rw [hmv, List.foldl_cons]
    have hov : orderIdOf v = some k := hwk (k, v) (List.mem_cons_self _ _)
    have hknm : k ∉ m.map Prod.fst := by
      rw [List.map_append] at hnd
      intro hk
      rcases List.nodup_append.mp hnd with ⟨_, _, hdisj⟩
      exact hdisj hk (by simp)
    have hgn : mapGet m k = none := (mapGet_eq_none_iff m k).mpr hknm
    have hstep : dedupStep m v = m ++ [(k, v)] := by
      simp only [dedupStep, hov, hgn]
      exact mapSet_of_not_mem m v hknm
    rw [hstep]
    have hrest : (mapValues rest).foldl dedupStep (m ++ [(k, v)]) =
        (m ++ [(k, v)]) ++ rest := by
      apply ih
      · intro q hq
        exact hwk q (List.mem_cons_of_mem _ hq)
      · rw [List.append_assoc]
        simpa using hnd
    rw [hrest, List.append_assoc]
    rfl

/-- C9: deduplication is idempotent: running the dedup loop on the
canonical records it produced (each record being an event that carries its
order identifier and winning timestamp) reproduces the same
identifier-to-record mapping. -/
theorem C9_dedup_idempotent (events : List NEvent) :
    dedupOrders (mapValues (dedupOrders events)) = dedupOrders events := by
  have h := foldl_dedupStep_values (dedupOrders events) []
    (dedupOrders_wellKeyed events) (by simpa using dedupOrders_keys_nodup events)
  simpa [dedupOrders] using h

/-! ### The loop over the deduplicated orders -/

theorem foldl_processOrder_spec (l : List NEvent) :
    ∀ acc : OrderAgg,
      (l.foldl processOrder acc).successfulOrders =
        acc.successfulOrders +
          (l.filter (fun e => decide (getTagValue e "s" = some "success"))).length ∧
      (l.foldl processOrder acc).tradeAmounts =
        acc.tradeAmounts ++
          (l.filter (fun e => decide (getTagValue e "s" = some "success"))).filterMap amountOf ∧
      (l.foldl processOrder acc).totalVolumeSats =
        acc.totalVolumeSats +
          ((l.filter (fun e => decide (getTagValue e "s" = some "success"))).filterMap amountOf).sum ∧
      (l.foldl processOrder acc).successfulTradeTimestamps =
        acc.successfulTradeTimestamps ++
          (l.filter (fun e => decide (getTagValue e "s" = some "success"))).map
            (fun e => e.created_at) := by
  induction l with
  | nil => intro acc; simp
  | cons e es ih =>
    intro acc
    rw [List.foldl_cons, List.filter_cons]
    by_cases hs : getTagValue e "s" = some "success"
    · rw [if_pos (by simpa using hs)]
      obtain ⟨ih1, ih2, ih3, ih4⟩ := ih (processOrder acc e)
      rcases ha : amountOf e with _ | n
      · have hp : processOrder acc e =
            { acc with
              successfulOrders := acc.successfulOrders + 1,
              successfulTradeTimestamps :=
                acc.successfulTradeTimestamps ++ [e.created_at] } := by
          simp [processOrder, hs, ha]
        rw [ih1, ih2, ih3, ih4, hp]
        refine ⟨by simp; omega, by simp [List.filterMap_cons, ha], ?_, ?_⟩
        · simp [List.filterMap_cons, ha]
        · simp [List.append_assoc]
      · have hp : processOrder acc e =
            { acc with
              successfulOrders := acc.successfulOrders + 1,
              successfulTradeTimestamps :=
                acc.successfulTradeTimestamps ++ [e.created_at],
              totalVolumeSats := acc.totalVolumeSats + n,
              tradeAmounts := acc.tradeAmounts ++ [n] } := by
          simp [processOrder, hs, ha]
        rw [ih1, ih2, ih3, ih4, hp]
        refine ⟨by simp; omega, ?_, ?_, ?_⟩
        · simp [List.filterMap_cons, ha, List.append_assoc]
        · simp [List.filterMap_cons, ha, List.sum_cons]
          omega
        · simp [List.append_assoc]
    · rw [if_neg (by simpa using hs)]
      have hp : processOrder acc e = acc := by simp [processOrder, hs]
      rw [hp]
      exact ih acc

/-- C8: every deduplicated order with status `success` counts toward
`successfulTrades` regardless of its `amt` tag; an amount joins the
statistics list and the volume exactly when the truthy `amt` value parses
(under JS `parseInt` semantics) to a positive number, a missing,
non-numeric or non-positive amount being silently excluded while the
remaining orders are still processed (the aggregation is a total
function); and the total volume is the sum of exactly the amounts on the
statistics list. -/
theorem C8_amount_filtering (orderEvents : List NEvent) :
    (aggregateOrders orderEvents).successfulOrders = (successEvents orderEvents).length ∧
    (aggregateOrders orderEvents).tradeAmounts =
      (successEvents orderEvents).filterMap amountOf ∧
    (aggregateOrders orderEvents).totalVolumeSats =
      ((aggregateOrders orderEvents).tradeAmounts).sum ∧
    (aggregateOrders orderEvents).successfulTradeTimestamps =
      (successEvents orderEvents).map (fun e => e.created_at) := by
  obtain ⟨h1, h2, h3, h4⟩ :=
    foldl_processOrder_spec (mapValues (dedupOrders orderEvents)) ⟨0, 0, [], []⟩
  refine ⟨?_, ?_, ?_, ?_⟩
  · rw [aggregateOrders, h1]
    simp [successEvents]
  · rw [aggregateOrders, h2]
    simp [successEvents]
  · rw [aggregateOrders, h3, h2]
    simp [successEvents]
  · rw [aggregateOrders, h4]
    simp [successEvents]

/-! ### The activity consistency walk -/

theorem foldl_gapStep (days : List Int) :
    ∀ g prev : Int, days.foldl gapStep (g, prev) =
      ((gapsFrom prev days).foldl max g, lastFrom prev days) := by
  induction days with
  | nil => intro g prev; rfl
  | cons d ds ih =>
    intro g prev
    rw [List.foldl_cons]
    exact ih _ d

theorem foldr_max_pull (l : List Int) :
    ∀ a b : Int, l.foldr max (max a b) = max a (l.foldr max b) := by
  induction l with
  | nil => intro a b; rfl
  | cons c cs ih =>
    intro a b
    rw [List.foldr_cons, List.foldr_cons, ih, max_left_comm]

theorem foldl_max_eq_foldr_max (l : List Int) :
    ∀ a : Int, l.foldl max a = l.foldr max a := by
  induction l with
  | nil => intro a; rfl
  | cons c cs ih =>
    intro a
    rw [List.foldl_cons, ih, List.foldr_cons, max_comm a c, foldr_max_pull]

theorem listMax_append_singleton (l : List Int) (f : Int) :
    listMax (l ++ [f]) = max (l.foldl max 0) f := by
  rw [listMax, List.foldr_append]
  have h1 : List.foldr max 0 [f] = max f 0 := rfl
  rw [h1, foldr_max_pull, max_comm f _, ← foldl_max_eq_foldr_max]

/-- C7: with no successful-trade timestamp in the trailing 30-day window
the analyzer reports `activeDays = 0` and `maxGap = 30`; otherwise
`activeDays` is the number of distinct calendar-day buckets
`floor(ts/86400)` in the window, and `maxGap` is the largest among the
per-day gaps `day - previousDay - 1` (clamped at 0, `previousDay` seeded
at the bucket of `now - 30·86400`) together with one final clamped gap
from the last active day to `today = floor(now/86400)`. -/
theorem C7_activityConsistency (timestamps : List Int) (now : Int) :
    (timestamps.filter (fun ts => decide (now - 30 * 86400 ≤ ts)) = [] →
      computeActivityConsistency timestamps now = ⟨0, 30⟩) ∧
    (timestamps.filter (fun ts => decide (now - 30 * 86400 ≤ ts)) ≠ [] →
      (computeActivityConsistency timestamps now).activeDays =
        ((timestamps.filter (fun ts => decide (now - 30 * 86400 ≤ ts))).map
          dayBucket).toFinset.card ∧
      (computeActivityConsistency timestamps now).maxGap =
        listMax (gapsFrom (dayBucket (now - 30 * 86400))
            (sortAsc (((timestamps.filter
              (fun ts => decide (now - 30 * 86400 ≤ ts))).map dayBucket).dedup)) ++
          [max 0 (dayBucket now -
            lastFrom (dayBucket (now - 30 * 86400))
              (sortAsc (((timestamps.filter
                (fun ts => decide (now - 30 * 86400 ≤ ts))).map dayBucket).dedup)))])) := by
  constructor
  · intro h
    have hb : ((timestamps.filter (fun ts => decide (now - 30 * 86400 ≤ ts))).map
        dayBucket).dedup = [] := by
      rw [h]
      rfl
    simp only [computeActivityConsistency]
    rw [if_pos hb]
  · intro h
    have hb : ((timestamps.filter (fun ts => decide (now - 30 * 86400 ≤ ts))).map
        dayBucket).dedup ≠ [] := by
      rw [Ne, List.dedup_eq_nil, List.map_eq_nil_iff]
      exact h
    constructor
    · simp only [computeActivityConsistency, if_neg hb]
      rw [List.card_toFinset]
    · simp only [computeActivityConsistency, if_neg hb]
      rw [foldl_gapStep, listMax_append_singleton]
      rfl

/-! ### The liveness metrics -/

theorem foldl_trackLast_eq_maxTsFrom (l : List NEvent) :
    ∀ a : Int, l.foldl trackLast a = maxTsFrom a l := by
  induction l with
  | nil => intro a; rfl
  | cons e es ih =>
    intro a
    have hstep : trackLast a e = max a e.created_at := by
      unfold trackLast
      rcases lt_or_le a e.created_at with h | h
      · rw [if_pos h, max_eq_right (le_of_lt h)]
      · rw [if_neg (not_lt.mpr h), max_eq_left h]
    rw [List.foldl_cons, hstep, ih, maxTsFrom_cons]

/-- C10 (amended): when every order event has a positive `created_at`,
`lastTrade` is the greatest `created_at` over all raw order events
(regardless of status, duplication or missing `d` tag; `none` exactly when
there are no order events) and `daysSinceLast` is
`floor((now - lastTrade)/86400)` (0 when there are none).  Events with
`created_at ≤ 0` break this (see the counterexample): the code encodes
"no trades" as `lastOrderTs = 0`. -/
theorem C10_liveness (dev ord : List NEvent) (now : Int)
    (h : ∀ e ∈ ord, 0 < e.created_at) :
    (computeMetrics dev ord now).lastTrade = maxCreatedAt ord ∧
    (computeMetrics dev ord now).daysSinceLast =
      (match maxCreatedAt ord with
       | none => 0
       | some m => Int.fdiv (now - m) 86400) := by
  cases ord with
  | nil =>
    constructor
    · show (if (0 : Int) < lastOrderTs [] then some (lastOrderTs []) else none) = none
      norm_num [lastOrderTs]
    · show (if (0 : Int) < lastOrderTs [] then Int.fdiv (now - lastOrderTs []) 86400 else 0) =
        (0 : Int)
      norm_num [lastOrderTs]
  | cons e rest =>
    have he : 0 < e.created_at := h e (List.mem_cons_self _ _)
    have h0 : trackLast 0 e = e.created_at := by
      unfold trackLast
      rw [if_pos he]
    have hlast : lastOrderTs (e :: rest) = maxTsFrom e.created_at rest := by
      rw [lastOrderTs, List.foldl_cons, h0, foldl_trackLast_eq_maxTsFrom]
    have hpos : 0 < lastOrderTs (e :: rest) := by
      rw [hlast]
      exact lt_of_lt_of_le he (le_maxTsFrom rest e.created_at)
    constructor
    · show (if 0 < lastOrderTs (e :: rest) then some (lastOrderTs (e :: rest)) else none) =
        maxCreatedAt (e :: rest)
      rw [if_pos hpos, hlast]
      rfl
    · show (if 0 < lastOrderTs (e :: rest) then
          Int.fdiv (now - lastOrderTs (e :: rest)) 86400 else 0) = _
      rw [if_pos hpos, hlast]
      rfl

theorem C10_liveness_witness :
    (computeMetrics [] [⟨5, []⟩] 86405).lastTrade = maxCreatedAt [⟨5, []⟩] ∧
    (computeMetrics [] [⟨5, []⟩] 86405).daysSinceLast =
      (match maxCreatedAt [⟨5, []⟩] with
       | none => 0
       | some m => Int.fdiv (86405 - m) 86400) :=
  C10_liveness [] [⟨5, []⟩] 86405 (by
    intro e he
    rw [List.mem_singleton] at he
    subst he
    decide)

/-- C10 counterexample: one order event with `created_at = 0` exists, yet
the report has `lastTrade = none` (not `some 0`, the maximum `created_at`)
and `daysSinceLast = 0` (not `floor((432000 - 0)/86400) = 5`), because
metrics.js initialises `lastOrderTs` to 0 and tests `lastOrderTs > 0` for
"any trade seen". -/
theorem C10_zero_timestamp_counterexample :
    (computeMetrics [] [⟨0, []⟩] 432000).lastTrade = none ∧
    (computeMetrics [] [⟨0, []⟩] 432000).lastTrade ≠ some 0 ∧
    (computeMetrics [] [⟨0, []⟩] 432000).daysSinceLast = 0 ∧
    Int.fdiv (432000 - 0) 86400 = 5 := by
  decide

end MostroScore
